import Mathlib

/-
Verification of the quasi run-time interpolation engine (src/src/lib.rs).

The token tree model mirrors proc_macro2: a token is a literal, a
punctuation character, an identifier (name text plus source span), or a
delimited group holding a child token sequence.  Spans are modelled as
abstract natural numbers.  A token stream is a list of tokens.

The replacement mapping (Rust: HashMap of name to ToTokens trait objects)
is modelled as an association list from names to the token sequence the
mapped value renders (to_tokens appends exactly that sequence); lookup is
by exact key equality, as HashMap::get is.
-/

/-- Delimiter kinds of proc_macro2 groups. -/
inductive Delimiter : Type where
  | parenthesis : Delimiter
  | brace : Delimiter
  | bracket : Delimiter
  | none : Delimiter
deriving DecidableEq, Repr

/-- Token trees, mirroring proc_macro2's TokenTree: Literal, Punct, Ident
and Group.  Literals carry their text, puncts their character, idents
their name text; every token carries a source span (an abstract Nat).
Groups hold a delimiter kind, a span and a child sequence. -/
inductive Token : Type where
  | literal : String → Nat → Token
  | punct : Char → Nat → Token
  | ident : String → Nat → Token
  | group : Delimiter → Nat → List Token → Token

/-- The replacement mapping: an association of placeholder name to the
token sequence its ToTokens value renders.  Models the Rust
HashMap of str keys to ToTokens values; lookup is by exact key match. -/
abbrev Replacements : Type := List (String × List Token)

mutual

/-- Translation of the Rust function interpolate (lib.rs lines 135-173):
walk the stream left to right; Literal and Punct are appended unchanged;
a Group is rebuilt with the same delimiter and span around its
recursively interpolated children; an Ident whose name is a mapping key
is replaced by the rendering of the mapped value, otherwise appended
unchanged. -/
def interpolate (stream : List Token) (replacements : Replacements) :
    List Token :=
  match stream with
  | [] => []
  | t :: ts => interpolateToken t replacements ++ interpolate ts replacements

/-- The output the loop body of interpolate appends for one token. -/
def interpolateToken (token : Token) (replacements : Replacements) :
    List Token :=
  match token with
  | .literal s sp => [.literal s sp]
  | .punct c sp => [.punct c sp]
  | .group d sp children => [.group d sp (interpolate children replacements)]
  | .ident name sp =>
    match List.lookup name replacements with
    | some value => value
    | Option.none => [.ident name sp]

end

/-- The Interpolate capability (the Rust trait Interpolate): a type that
can take a template stream and replace its own interpolation markers. -/
class Interpolate (α : Type) where
  interpolate : α → List Token → List Token

/-- Model of syn's Punctuated collection: value-separator pairs followed
by an optional trailing value; iteration yields the values in order. -/
structure Punctuated (T : Type) (P : Type) where
  inner : List (T × P)
  last : Option T

/-- The items a Punctuated sequence iterates over, in order: the first
components of the pairs, then the trailing value when present. -/
def Punctuated.items {T P : Type} (p : Punctuated T P) : List T :=
  p.inner.map Prod.fst ++ p.last.toList

/-- Translation of the Interpolate impl for Punctuated (lib.rs lines
123-131): fold over the items, starting from the empty stream, extending
the accumulator with each item's own interpolation of the template. -/
def Punctuated.interpolate {T P : Type} [Interpolate T]
    (p : Punctuated T P) (stream : List Token) : List Token :=
  p.items.foldl
    (fun implementations t =>
      implementations ++ Interpolate.interpolate t stream) []

instance {T P : Type} [Interpolate T] : Interpolate (Punctuated T P) :=
  ⟨Punctuated.interpolate⟩

/-- The KeyValue domain type from the crate documentation example: holds
a key identifier and a value identifier. -/
structure KeyValue where
  key : Token
  value : Token

/-- The doc example's Interpolate impl for KeyValue: bind KEY to the key
and VALUE to the value and delegate to the engine. -/
instance : Interpolate KeyValue :=
  ⟨fun kv stream =>
    interpolate stream [("KEY", [kv.key]), ("VALUE", [kv.value])]⟩

/-
Helper lemmas shared by the claim theorems.
-/

/-- The engine distributes over concatenation of input streams: the walk
is left to right and each token is handled independently. -/
theorem interpolate_append (s1 s2 : List Token) (m : Replacements) :
    interpolate (s1 ++ s2) m = interpolate s1 m ++ interpolate s2 m := by
  induction s1 with
  | nil => simp [interpolate]
  | cons t ts ih => simp [interpolate, ih]

mutual

/-- With an empty mapping every single token is reproduced unchanged. -/
theorem interpolateToken_nil_map (t : Token) : interpolateToken t [] = [t] :=
  match t with
  | .literal s sp => rfl
  | .punct c sp => rfl
  | .ident n sp => rfl
  | .group d sp cs => by
      simp [interpolateToken, interpolate_nil_map cs]

/-- With an empty mapping the engine reproduces the stream unchanged. -/
theorem interpolate_nil_map (s : List Token) : interpolate s [] = s :=
  match s with
  | [] => rfl
  | t :: ts => by
      simp [interpolate, interpolateToken_nil_map t, interpolate_nil_map ts]

end

mutual

/-- The output for one token depends on the mapping only through the
lookups the engine performs. -/
theorem interpolateToken_lookup_congr (t : Token) (m1 m2 : Replacements)
    (h : ∀ k, List.lookup k m1 = List.lookup k m2) :
    interpolateToken t m1 = interpolateToken t m2 :=
  match t with
  | .literal s sp => rfl
  | .punct c sp => rfl
  | .ident n sp => by simp [interpolateToken, h n]
  | .group d sp cs => by
      simp [interpolateToken, interpolate_lookup_congr cs m1 m2 h]

/-- The engine output depends on the mapping only through the lookups it
performs. -/
theorem interpolate_lookup_congr (s : List Token) (m1 m2 : Replacements)
    (h : ∀ k, List.lookup k m1 = List.lookup k m2) :
    interpolate s m1 = interpolate s m2 :=
  match s with
  | [] => rfl
  | t :: ts => by
      simp [interpolate, interpolateToken_lookup_congr t m1 m2 h,
        interpolate_lookup_congr ts m1 m2 h]

end

/-- Association lists with distinct keys that are permutations of each
other give the same lookup result for every key. -/
theorem lookup_eq_of_perm (k : String) (m1 m2 : Replacements)
    (hp : m1.Perm m2) (hnd : (m1.map Prod.fst).Nodup) :
    List.lookup k m1 = List.lookup k m2 := by
  induction hp with
  | nil => rfl
  | cons x hp ih =>
      simp only [List.map_cons, List.nodup_cons] at hnd
      cases hk : k == x.1 <;> simp [List.lookup, hk]
      exact ih hnd.2
  | swap x y l =>
      simp only [List.map_cons, List.nodup_cons, List.mem_cons] at hnd
      cases hky : k == y.1 <;> cases hkx : k == x.1 <;>
        simp [List.lookup, hky, hkx]
      exact (hnd.1 (Or.inl ((eq_of_beq hky).symm.trans (eq_of_beq hkx)))).elim
  | trans hp1 hp2 ih1 ih2 =>
      exact (ih1 hnd).trans (ih2 (((hp1.map Prod.fst).nodup_iff).mp hnd))

/-
Cost model for the engine.  streamSize counts the nodes of the input
tree; streamNesting is its Group nesting depth.  interpolateSteps counts
the loop iterations the engine performs on a given input and mapping
(one per token visited, including tokens inside groups), and
interpolateCallDepth counts the depth of nested interpolate calls (the
outermost call included).  Both instrumentation functions mirror the
recursion structure of interpolate exactly, mapping argument included.
-/

mutual

/-- Node count of a token stream. -/
def streamSize (s : List Token) : Nat :=
  match s with
  | [] => 0
  | t :: ts => tokenSize t + streamSize ts

/-- Node count of one token: one for the token itself plus, for a group,
the nodes of its children. -/
def tokenSize (t : Token) : Nat :=
  match t with
  | .group _ _ children => 1 + streamSize children
  | _ => 1

end

mutual

/-- Group nesting depth of a token stream. -/
def streamNesting (s : List Token) : Nat :=
  match s with
  | [] => 0
  | t :: ts => max (tokenNesting t) (streamNesting ts)

/-- Group nesting depth of one token. -/
def tokenNesting (t : Token) : Nat :=
  match t with
  | .group _ _ children => 1 + streamNesting children
  | _ => 0

end

mutual

/-- Loop iterations interpolate performs on a stream: one per token
visited, with a recursive visit of every group's children. -/
def interpolateSteps (s : List Token) (m : Replacements) : Nat :=
  match s with
  | [] => 0
  | t :: ts => tokenSteps t m + interpolateSteps ts m

/-- Loop iterations the engine spends on one token. -/
def tokenSteps (t : Token) (m : Replacements) : Nat :=
  match t with
  | .group _ _ children => 1 + interpolateSteps children m
  | _ => 1

end

mutual

/-- Depth of nested interpolate calls made while processing a stream,
counting the current call as one. -/
def interpolateCallDepth (s : List Token) (m : Replacements) : Nat :=
  match s with
  | [] => 1
  | t :: ts => max (tokenCallDepth t m) (interpolateCallDepth ts m)

/-- Depth of nested interpolate calls made while processing one token
within the current call. -/
def tokenCallDepth (t : Token) (m : Replacements) : Nat :=
  match t with
  | .group _ _ children => 1 + interpolateCallDepth children m
  | _ => 1

end

mutual

/-- The engine's per-token work count is the token's node count, for
every mapping. -/
theorem tokenSteps_eq_size (t : Token) (m : Replacements) :
    tokenSteps t m = tokenSize t :=
  match t with
  | .literal s sp => rfl
  | .punct c sp => rfl
  | .ident n sp => rfl
  | .group d sp cs => by
      simp [tokenSteps, tokenSize, interpolateSteps_eq_size cs m]

/-- The engine's work count on a stream is its node count, for every
mapping. -/
theorem interpolateSteps_eq_size (s : List Token) (m : Replacements) :
    interpolateSteps s m = streamSize s :=
  match s with
  | [] => rfl
  | t :: ts => by
      simp [interpolateSteps, streamSize, tokenSteps_eq_size t m,
        interpolateSteps_eq_size ts m]

end

mutual

/-- Per-token recursion depth is nesting depth plus one, for every
mapping. -/
theorem tokenCallDepth_eq_nesting (t : Token) (m : Replacements) :
    tokenCallDepth t m = tokenNesting t + 1 :=
  match t with
  | .literal s sp => rfl
  | .punct c sp => rfl
  | .ident n sp => rfl
  | .group d sp cs => by
      simp [tokenCallDepth, tokenNesting,
        interpolateCallDepth_eq_nesting cs m]
      omega

/-- Recursion depth on a stream is its nesting depth plus one, for every
mapping. -/
theorem interpolateCallDepth_eq_nesting (s : List Token) (m : Replacements) :
    interpolateCallDepth s m = streamNesting s + 1 :=
  match s with
  | [] => rfl
  | t :: ts => by
      simp [interpolateCallDepth, streamNesting,
        tokenCallDepth_eq_nesting t m,
        interpolateCallDepth_eq_nesting ts m]
      omega

end

/-- Folding append over a list starting from an accumulator yields the
accumulator followed by the flattened per-element outputs. -/
theorem foldl_append_eq_flatten {α : Type} (f : α → List Token)
    (l : List α) (acc : List Token) :
    l.foldl (fun a t => a ++ f t) acc = acc ++ (l.map f).flatten := by
  induction l generalizing acc with
  | nil => simp
  | cons x xs ih => simp [ih, List.append_assoc]

/-
Claim theorems.
-/

/-- Claim C1, counterexample to the clause that the original Identifier
never appears at the position of a match: with the mapping that sends
name x to a fragment rendering exactly that same identifier, the name is
a key, yet the output at that position is the original Identifier. -/
theorem interpolate_match_counterexample :
    (List.lookup "x" [("x", [Token.ident "x" 0])]).isSome = true ∧
    interpolate [Token.ident "x" 0] [("x", [Token.ident "x" 0])]
      = [Token.ident "x" 0] :=
  ⟨rfl, rfl⟩

/-- Claim C1 (amended): an Identifier is replaced iff its name is a key
of the mapping: at the identifier's position the output is exactly the
rendering of the key's fragment when the name is a key, and the
identical Identifier (name and span) when it is not. -/
theorem interpolate_ident_at_position (m : Replacements)
    (pre post : List Token) (name : String) (sp : Nat) :
    interpolate (pre ++ Token.ident name sp :: post) m =
      interpolate pre m ++
        (match List.lookup name m with
         | some value => value
         | Option.none => [Token.ident name sp]) ++
        interpolate post m := by
  rw [show pre ++ Token.ident name sp :: post
      = pre ++ (Token.ident name sp :: post) from rfl,
    interpolate_append]
  simp [interpolate, interpolateToken, List.append_assoc]

/-- Claim C2: interpolating a one-token stream holding a Group preserves
the delimiter kind and span and recursively interpolates only the
children, with the same mapping. -/
theorem interpolate_group_structural (d : Delimiter) (sp : Nat)
    (children : List Token) (m : Replacements) :
    interpolate [Token.group d sp children] m
      = [Token.group d sp (interpolate children m)] := by
  simp [interpolate, interpolateToken]

/-- Claim C3: with an empty mapping, interpolation is the identity:
every token tree is reproduced structurally and positionally
unchanged. -/
theorem interpolate_empty_mapping_identity (s : List Token) :
    interpolate s [] = s :=
  interpolate_nil_map s

/-- Claim C4: substitution is single-pass: when a key's fragment is
found, its rendering is appended verbatim as the whole output for that
identifier and is never re-scanned against the mapping — even when the
fragment contains an identifier whose name is itself a mapping key, that
inner identifier is left exactly as it is in the fragment. -/
theorem interpolate_single_pass (m : Replacements) (key key2 : String)
    (sp sp2 : Nat) (value : List Token)
    (hfound : List.lookup key m = some value)
    (hmem : Token.ident key2 sp2 ∈ value)
    (hkey2 : (List.lookup key2 m).isSome = true) :
    interpolate [Token.ident key sp] m = value := by
  simp [interpolate, interpolateToken, hfound]

/-- Claim C4 witness: the fragment for K is the identifier K2, itself a
mapping key, and the output is that fragment verbatim, K2 left
unsubstituted. -/
theorem interpolate_single_pass_witness :
    interpolate [Token.ident "K" 0]
      [("K", [Token.ident "K2" 5]), ("K2", [Token.literal "z" 9])]
      = [Token.ident "K2" 5] :=
  interpolate_single_pass _ "K" "K2" 0 5 _ rfl
    (List.mem_singleton_self _) rfl

/-- Claim C5: the Punctuated combinator's output is the concatenation,
in item order, of each item's own interpolation of the shared template,
and an empty item sequence yields the empty output. -/
theorem punctuated_interpolate_concat (T P : Type) [Interpolate T]
    (p : Punctuated T P) (tpl : List Token) :
    Punctuated.interpolate p tpl
      = (p.items.map (fun t => Interpolate.interpolate t tpl)).flatten ∧
    Punctuated.interpolate
      (Punctuated.mk ([] : List (T × P)) Option.none) tpl = [] := by
  constructor
  · simpa using
      foldl_append_eq_flatten
        (fun t => Interpolate.interpolate t tpl) p.items []
  · rfl

/-- Claim C6: Literal and Punct tokens are never match targets: each one
appears unchanged at its position in the output, whatever the mapping
holds. -/
theorem interpolate_literal_punct_invariant (m : Replacements)
    (pre post : List Token) (s : String) (c : Char) (sp1 sp2 : Nat) :
    interpolate (pre ++ Token.literal s sp1 :: post) m
      = interpolate pre m ++ Token.literal s sp1 :: interpolate post m ∧
    interpolate (pre ++ Token.punct c sp2 :: post) m
      = interpolate pre m ++ Token.punct c sp2 :: interpolate post m := by
  constructor <;>
    rw [show ∀ x : Token, pre ++ x :: post = pre ++ (x :: post) from
      fun x => rfl, interpolate_append] <;>
    simp [interpolate, interpolateToken]

/-- Claim C7: the engine is a total function (interpolate is defined by
structural recursion, so it terminates on every input); its work count
equals the input's node count for every mapping — time linear in input
size regardless of mapping size or content — and its recursion depth is
exactly the input's Group nesting depth plus one (the outermost call),
again independent of the mapping. -/
theorem interpolate_total_linear (s : List Token) (m : Replacements) :
    interpolateSteps s m = streamSize s ∧
    interpolateCallDepth s m = streamNesting s + 1 :=
  ⟨interpolateSteps_eq_size s m, interpolateCallDepth_eq_nesting s m⟩

/-- Claim C8: the result is independent of mapping iteration order: two
mappings holding exactly the same key-to-fragment associations (one a
permutation of the other, keys unique) produce identical output on
every input. -/
theorem interpolate_map_order_irrelevant (s : List Token)
    (m1 m2 : Replacements) (hnd : (m1.map Prod.fst).Nodup)
    (hp : m1.Perm m2) :
    interpolate s m1 = interpolate s m2 :=
  interpolate_lookup_congr s m1 m2 (fun k => lookup_eq_of_perm k m1 m2 hp hnd)

/-- Claim C8 witness: the two-entry mapping listed in either order gives
the same output on a stream using both keys. -/
theorem interpolate_map_order_irrelevant_witness :
    interpolate [Token.ident "a" 0, Token.ident "b" 1]
      [("a", [Token.literal "1" 2]), ("b", [Token.literal "2" 3])]
      = interpolate [Token.ident "a" 0, Token.ident "b" 1]
        [("b", [Token.literal "2" 3]), ("a", [Token.literal "1" 2])] :=
  interpolate_map_order_irrelevant _ _ _
    (by simp)
    (List.Perm.swap ("b", [Token.literal "2" 3])
      ("a", [Token.literal "1" 2]) [])

/-- Claim C9: the engine is a homomorphism over stream concatenation:
the walk is strictly left to right and each token's output depends only
on that token and the mapping. -/
theorem interpolate_append_hom (s1 s2 : List Token) (m : Replacements) :
    interpolate (s1 ++ s2) m = interpolate s1 m ++ interpolate s2 m :=
  interpolate_append s1 s2 m

/-- Claim C10: the Punctuated combinator discards the separators: two
Punctuated sequences with the same items in the same order, whatever
their separator types and values, interpolate to the same output. -/
theorem punctuated_separators_ignored (T P1 P2 : Type) [Interpolate T]
    (inner1 : List (T × P1)) (inner2 : List (T × P2)) (last : Option T)
    (tpl : List Token)
    (h : inner1.map Prod.fst = inner2.map Prod.fst) :
    Punctuated.interpolate (Punctuated.mk inner1 last) tpl
      = Punctuated.interpolate (Punctuated.mk inner2 last) tpl := by
  simp [Punctuated.interpolate, Punctuated.items, h]

/-- Claim C10 witness: the same KeyValue items once with unit separators
and once with boolean separators interpolate identically. -/
theorem punctuated_separators_ignored_witness :
    Punctuated.interpolate
      (Punctuated.mk [(KeyValue.mk (Token.ident "k1" 0) (Token.ident "v1" 1), ())]
        (some (KeyValue.mk (Token.ident "k2" 2) (Token.ident "v2" 3))))
      [Token.ident "KEY" 7]
      = Punctuated.interpolate
        (Punctuated.mk
          [(KeyValue.mk (Token.ident "k1" 0) (Token.ident "v1" 1), true)]
          (some (KeyValue.mk (Token.ident "k2" 2) (Token.ident "v2" 3))))
        [Token.ident "KEY" 7] :=
  punctuated_separators_ignored KeyValue Unit Bool _ _ _ _ rfl
